import Mathlib

/-! The script `scripts/wasm-to-asm.js`.

A shallow embedding of the post-build script and of the pieces of the
JavaScript runtime it relies on (`String.prototype.replace` with a global
regular expression, `fs.readFile`, `fs.writeFile`, `fs.unlinkSync` and the
callback queue), followed by the properties the specification states about it.

JavaScript strings are sequences of UTF-16 code units; a code unit is a `Nat`
(below `0x10000` in every text that comes from a file).
-/

namespace WasmToAsm

/-! ## Texts -/

/-- A JavaScript string value: its UTF-16 code units, in order. -/
abbrev Text := List Nat

/-- UTF-16 encoding of one Unicode scalar value. -/
def utf16 (c : Char) : List Nat :=
  if c.toNat < 0x10000 then [c.toNat]
  else [0xD800 + (c.toNat - 0x10000) / 0x400, 0xDC00 + (c.toNat - 0x10000) % 0x400]

/-- The JavaScript string written as the given literal. -/
def toText (s : String) : Text := s.toList.flatMap utf16

/-! ## The regular expression `/_bg.wasm/g` -/

/-- ECMAScript *LineTerminator*: LF, CR, LS and PS. Without the `s` flag these
are the only code units `.` refuses. -/
def isLineTerminator (c : Nat) : Bool :=
  c == 0x000A || c == 0x000D || c == 0x2028 || c == 0x2029

/-- One term of the pattern: a literal code unit or the wildcard `.`. -/
inductive Atom where
  | unit (c : Nat)
  | dot
  deriving DecidableEq, Repr

/-- Whether a pattern term accepts a code unit. -/
def Atom.accepts : Atom → Nat → Bool
  | .unit c, d => d == c
  | .dot, d => !isLineTerminator d

/-- Whether the sequence of terms matches at the very start of the text. Every
term consumes exactly one code unit, so there is no backtracking. -/
def matchHere : List Atom → Text → Bool
  | [], _ => true
  | _ :: _, [] => false
  | a :: as, c :: cs => a.accepts c && matchHere as cs

/-- The source of the regular expression literal `/_bg.wasm/g`: `_`, `b`, `g`,
an unescaped `.`, `w`, `a`, `s`, `m`. -/
def pattern : List Atom :=
  (toText "_bg").map Atom.unit ++ [Atom.dot] ++ (toText "wasm").map Atom.unit

/-- The replacement string `'.asm.js'` (it holds no `$`, so it is inserted
verbatim). -/
def replacement : Text := toText ".asm.js"

/-- The scan of `RegExp.prototype[Symbol.replace]` with the `g` flag, from left
to right. `skip` counts the code units of the current match that are still to be
passed over (the distance to `lastIndex`); at `skip = 0` the pattern is tried at
the current position: on a match the replacement is emitted and the scan resumes
right after the match, otherwise the code unit is copied and the scan moves on
by one. -/
def replaceFrom : Nat → Text → Text
  | _, [] => []
  | skip + 1, _ :: cs => replaceFrom skip cs
  | 0, c :: cs =>
    if matchHere pattern (c :: cs) then
      replacement ++ replaceFrom (pattern.length - 1) cs
    else c :: replaceFrom 0 cs

/-- `data.replace(/_bg.wasm/g, '.asm.js')`. -/
def patch (data : Text) : Text := replaceFrom 0 data

/-! ## Vocabulary of the specification -/

/-- The WASM-reference token of the specification, the literal `_bg.wasm`. -/
def wasmToken : Text := toText "_bg.wasm"

/-- Number of positions of the text at which `needle` starts. -/
def countOcc (needle : Text) : Text → Nat
  | [] => 0
  | c :: cs => (if needle.isPrefixOf (c :: cs) then 1 else 0) + countOcc needle cs

/-- Number of positions of the text at which the pattern matches. -/
def countMatches : Text → Nat
  | [] => 0
  | c :: cs => (if matchHere pattern (c :: cs) then 1 else 0) + countMatches cs

/-- Whether the pattern matches at some position of the text. -/
def matchesAnywhere : Text → Bool
  | [] => false
  | c :: cs => matchHere pattern (c :: cs) || matchesAnywhere cs

/-- Whether the pattern matches at some position where the literal token does
not start (the wildcard stands for something other than a full stop). -/
def nonLiteralMatch : Text → Bool
  | [] => false
  | c :: cs =>
    (matchHere pattern (c :: cs) && !wasmToken.isPrefixOf (c :: cs)) || nonLiteralMatch cs

/-- Replace-all of the literal token as the specification words it: scanning
from the left, each occurrence of `_bg.wasm` becomes `.asm.js` and every other
code unit is copied. -/
def literalReplaceFrom : Nat → Text → Text
  | _, [] => []
  | skip + 1, _ :: cs => literalReplaceFrom skip cs
  | 0, c :: cs =>
    if wasmToken.isPrefixOf (c :: cs) then
      replacement ++ literalReplaceFrom (wasmToken.length - 1) cs
    else c :: literalReplaceFrom 0 cs

/-- The substitution of the specification: literal replace-all. -/
def literalReplaceAll (s : Text) : Text := literalReplaceFrom 0 s

/-! ## The file system -/

/-- The error codes the modelled `fs` calls report. -/
inductive FsError where
  | ENOENT
  | EACCES
  | EISDIR
  deriving DecidableEq, Repr

/-- A regular file: its content as the text `'utf8'` decoding yields (files are
taken to hold well-formed UTF-8, which `'utf8'` encoding writes back unchanged),
whether the process may read it and may write it, and whether the directory
that holds it lets the process remove it. -/
structure File where
  content : Text
  readable : Bool
  writable : Bool
  removable : Bool
  deriving DecidableEq, Repr

/-- What a path names: a regular file or a directory. -/
inductive Entry where
  | file (f : File)
  | directory
  deriving DecidableEq, Repr

/-- The file system: what, if anything, each path names. -/
abbrev FS := String → Option Entry

/-- The effect of `fs.readFile(path, 'utf8', cb)`: the error or the data handed to `cb`. -/
def readFile (fs : FS) (path : String) : Except FsError Text :=
  match fs path with
  | none => .error .ENOENT
  | some .directory => .error .EISDIR
  | some (.file f) => if f.readable then .ok f.content else .error .EACCES

/-- The effect of `fs.writeFile(path, data, 'utf8', cb)`: the error handed to
`cb`, or the file system in which `path` holds exactly `data` (the file is
created when the path names nothing). -/
def writeFile (fs : FS) (path : String) (data : Text) : Except FsError FS :=
  match fs path with
  | none =>
    .ok (Function.update fs path
      (some (.file { content := data, readable := true, writable := true, removable := true })))
  | some .directory => .error .EISDIR
  | some (.file f) =>
    if f.writable then .ok (Function.update fs path (some (.file { f with content := data })))
    else .error .EACCES

/-- The effect of `fs.unlinkSync(path)`: the error thrown, or the file system
without `path`. The call throws when the path names nothing (`ENOENT`), when it
names a directory (`EISDIR`) and when the directory that holds the file refuses
the removal (`EACCES`). -/
def unlinkSync (fs : FS) (path : String) : Except FsError FS :=
  match fs path with
  | none => .error .ENOENT
  | some .directory => .error .EISDIR
  | some (.file f) => if f.removable then .ok (Function.update fs path none) else .error .EACCES

/-! ## The script -/

/-- The array `paths` of the script. -/
def paths : List String :=
  ["./rust/pkg/cardano_message_signing_bg.js", "./rust/pkg/cardano_message_signing.js"]

/-- The argument of `fs.unlinkSync`. -/
def wasmPath : String := "./rust/pkg/cardano_message_signing_bg.wasm"

/-- The path the `i`-th call of the `forEach` callback receives. -/
def pathOf (i : Fin 2) : String := paths.get (i.cast (by decide))

/-- Where one read/patch/write sequence stands: `fs.readFile` issued and its
callback still to run, `fs.writeFile` issued with `result` and its callback
still to run, or nothing pending. -/
inductive Phase where
  | reading
  | writing (result : Text)
  | done
  deriving DecidableEq, Repr

/-- A line of `console.log(err)`: the path and the error code. -/
abbrev Diag := String × FsError

/-- The state the callbacks act on: the file system and the phase of the
sequence of each path. -/
structure State where
  fs : FS
  phase : Fin 2 → Phase

/-- One step of the sequence of `paths[i]`: the pending file operation takes
effect and its callback runs. Returns the new state and what was logged. -/
def stepTask (i : Fin 2) (st : State) : State × List Diag :=
  match st.phase i with
  | .reading =>
    match readFile st.fs (pathOf i) with
    | .error err => ({ st with phase := Function.update st.phase i .done }, [(pathOf i, err)])
    | .ok data =>
      let result := patch data
      ({ st with phase := Function.update st.phase i (.writing result) }, [])
  | .writing result =>
    match writeFile st.fs (pathOf i) result with
    | .error err => ({ st with phase := Function.update st.phase i .done }, [(pathOf i, err)])
    | .ok fs' => ({ fs := fs', phase := Function.update st.phase i .done }, [])
  | .done => (st, [])

/-- Steps taken in the order the schedule names the sequences. -/
def runSchedule : List (Fin 2) → State → State × List Diag
  | [], st => (st, [])
  | i :: rest, st =>
    let r1 := stepTask i st
    let r2 := runSchedule rest r1.1
    (r2.1, r1.2 ++ r2.2)

/-- The event loop: the callbacks run in the order `sched` gives, and the loop
does not end while an operation is pending, so whatever `sched` left undone is
then run to its end. -/
def eventLoop (sched : List (Fin 2)) (st : State) : State × List Diag :=
  runSchedule (sched ++ [0, 0, 1, 1]) st

/-- The state right after `paths.forEach`: both reads issued, no callback run. -/
def issued (fs : FS) : State := { fs := fs, phase := fun _ => .reading }

/-- How the process ends. -/
inductive Outcome where
  | exit0
  | uncaught (err : FsError)
  deriving DecidableEq, Repr

/-- What a run leaves behind. -/
structure Run where
  outcome : Outcome
  fs : FS
  console : List Diag

/-- The script, from top to bottom: `paths.forEach` issues the two reads,
`fs.unlinkSync` runs at once, and only then does the event loop run the
callbacks. An error thrown by `unlinkSync` is not caught: the process ends
before any callback runs. -/
def script (sched : List (Fin 2)) (fs : FS) : Run :=
  let st := issued fs
  match unlinkSync st.fs wasmPath with
  | .error err => { outcome := .uncaught err, fs := st.fs, console := [] }
  | .ok fs1 =>
    let r := eventLoop sched { st with fs := fs1 }
    { outcome := .exit0, fs := r.1.fs, console := r.2 }

/-- What the completed sequence of a path leaves at that path. -/
def patchedEntry : Option Entry → Option Entry
  | none => none
  | some .directory => some .directory
  | some (.file f) =>
    if f.readable && f.writable then some (.file { f with content := patch f.content })
    else some (.file f)

/-- What a sequence in phase `ph` will have left at its path once it is
complete, given what the path holds now. -/
def pendingEntry : Phase → Option Entry → Option Entry
  | .reading, e => patchedEntry e
  | .writing result, none =>
    some (.file { content := result, readable := true, writable := true, removable := true })
  | .writing _, some .directory => some .directory
  | .writing result, some (.file f) =>
    if f.writable then some (.file { f with content := result }) else some (.file f)
  | .done, e => e

/-- The file system once every pending sequence is complete. -/
def settled (st : State) : FS := fun q =>
  if q = pathOf 0 then pendingEntry (st.phase 0) (st.fs q)
  else if q = pathOf 1 then pendingEntry (st.phase 1) (st.fs q)
  else st.fs q

/-- How many steps a sequence in this phase still has to take. -/
def Phase.pending : Phase → Nat
  | .reading => 2
  | .writing _ => 1
  | .done => 0

/-- The two loader files of the examples. -/
def sampleLoader (i : Fin 2) : File :=
  { content :=
      if i = 0 then toText "import * as wasm from './cardano_message_signing_bg.wasm';"
      else toText "export * from './cardano_message_signing_bg.wasm';"
    readable := true
    writable := true
    removable := true }

/-- The binary of the examples; its content is never read. -/
def sampleBinary : File :=
  { content := [0, 97, 115, 109], readable := true, writable := true, removable := true }

/-- A file system for the examples: the binary and both loaders are present. -/
def sampleFS : FS := fun q =>
  if q = wasmPath then some (.file sampleBinary)
  else if q = pathOf 0 then some (.file (sampleLoader 0))
  else if q = pathOf 1 then some (.file (sampleLoader 1))
  else none

/-- The example file system without the first loader. -/
def missingLoaderFS : FS := Function.update sampleFS (pathOf 0) none

/-- The example file system in a directory that does not let the process remove
the binary: the binary and both loaders are present, readable and writable. -/
def lockedFS : FS :=
  Function.update sampleFS wasmPath (some (.file { sampleBinary with removable := false }))


/-! ## The pattern and the tokens, spelled out -/

theorem pattern_eq : pattern =
    [.unit 95, .unit 98, .unit 103, .dot, .unit 119, .unit 97, .unit 115, .unit 109] := by
  decide

theorem replacement_eq : replacement = [46, 97, 115, 109, 46, 106, 115] := by decide

theorem wasmToken_eq : wasmToken = [95, 98, 103, 46, 119, 97, 115, 109] := by decide

theorem isPrefixOf_iff (l t : Text) : l.isPrefixOf t = true ↔ l <+: t :=
  List.isPrefixOf_iff_prefix

theorem matchHere_pattern_iff (t : Text) :
    matchHere pattern t = true ↔
      ∃ x rest, isLineTerminator x = false ∧
        t = 95 :: 98 :: 103 :: x :: 119 :: 97 :: 115 :: 109 :: rest := by
  rw [pattern_eq]
  constructor
  · intro h
    rcases t with _ | ⟨a, _ | ⟨b, _ | ⟨c, _ | ⟨x, _ | ⟨d, _ | ⟨e, _ | ⟨f, _ | ⟨g, rest⟩⟩⟩⟩⟩⟩⟩⟩ <;>
      simp [matchHere, Atom.accepts] at h
    obtain ⟨rfl, rfl, rfl, hx, rfl, rfl, rfl, rfl⟩ := h
    exact ⟨x, rest, hx, rfl⟩
  · rintro ⟨x, rest, hx, rfl⟩
    simp [matchHere, Atom.accepts, hx]

theorem matchHere_head {c : Nat} {cs : Text} (h : c ≠ 95) :
    matchHere pattern (c :: cs) = false := by
  rw [pattern_eq]
  simp [matchHere, Atom.accepts, h]

theorem isPrefixOf_wasmToken_iff (t : Text) :
    wasmToken.isPrefixOf t = true ↔ ∃ rest, t = 95 :: 98 :: 103 :: 46 :: 119 :: 97 :: 115 :: 109 :: rest := by
  rw [isPrefixOf_iff, wasmToken_eq]
  constructor
  · rintro ⟨r, rfl⟩; exact ⟨r, rfl⟩
  · rintro ⟨r, rfl⟩; exact ⟨r, rfl⟩

theorem matchHere_of_isPrefixOf {t : Text} (h : wasmToken.isPrefixOf t = true) :
    matchHere pattern t = true := by
  obtain ⟨rest, rfl⟩ := (isPrefixOf_wasmToken_iff t).1 h
  exact (matchHere_pattern_iff _).2 ⟨46, rest, by decide, rfl⟩

/-! ## Unfolding the scan -/

theorem replaceFrom_skip (k : Nat) (s : Text) : replaceFrom k s = replaceFrom 0 (s.drop k) := by
  induction k generalizing s with
  | zero => simp
  | succ k ih =>
    cases s with
    | nil => simp [replaceFrom]
    | cons c cs => simp [replaceFrom, ih cs]

theorem patch_nil : patch [] = [] := rfl

theorem patch_cons_of_no_match {c : Nat} {cs : Text} (h : matchHere pattern (c :: cs) = false) :
    patch (c :: cs) = c :: patch cs := by
  simp [patch, replaceFrom, h]

theorem patch_hit (x : Nat) (rest : Text) (hx : isLineTerminator x = false) :
    patch (95 :: 98 :: 103 :: x :: 119 :: 97 :: 115 :: 109 :: rest) = replacement ++ patch rest := by
  have hm : matchHere pattern (95 :: 98 :: 103 :: x :: 119 :: 97 :: 115 :: 109 :: rest) = true :=
    (matchHere_pattern_iff _).2 ⟨x, rest, hx, rfl⟩
  have hl : pattern.length - 1 = 7 := by rw [pattern_eq]; rfl
  simp only [patch, replaceFrom, hm, if_true, hl]

/-- Induction along the scan: the empty text, a position where the pattern does
not match, and a match followed by the rest of the text. -/
theorem scan_induction {P : Text → Prop} (nil : P [])
    (copy : ∀ c cs, matchHere pattern (c :: cs) = false → P cs → P (c :: cs))
    (hit : ∀ x rest, isLineTerminator x = false → P rest →
      P (95 :: 98 :: 103 :: x :: 119 :: 97 :: 115 :: 109 :: rest)) :
    ∀ s, P s := by
  intro s
  generalize h : s.length = n
  induction n using Nat.strong_induction_on generalizing s with
  | _ n ih =>
    cases s with
    | nil => exact nil
    | cons c cs =>
      cases hm : matchHere pattern (c :: cs) with
      | false => exact copy c cs hm (ih cs.length (by simp [← h]) cs rfl)
      | true =>
        obtain ⟨x, rest, hx, heq⟩ := (matchHere_pattern_iff _).1 hm
        rw [heq]
        refine hit x rest hx (ih rest.length ?_ rest rfl)
        rw [← h, heq]; simp; omega

/-! ## What the head of the output says about the input -/

theorem patch_head {s r : Text} {d : Nat} (h : patch s = d :: r) (hd : d ≠ 46) :
    ∃ s', s = d :: s' ∧ patch s' = r := by
  cases s with
  | nil => simp [patch_nil] at h
  | cons c cs =>
    cases hm : matchHere pattern (c :: cs) with
    | false =>
      rw [patch_cons_of_no_match hm] at h
      injection h with h1 h2
      subst h1
      exact ⟨cs, rfl, h2⟩
    | true =>
      obtain ⟨x, rest, hx, heq⟩ := (matchHere_pattern_iff _).1 hm
      rw [heq, patch_hit x rest hx, replacement_eq] at h
      simp at h
      exact absurd h.1.symm hd

theorem patch_head_next {s r : Text} {d e : Nat} (h : patch s = d :: e :: r) (he : e ≠ 97) :
    ∃ s', s = d :: s' ∧ patch s' = e :: r := by
  cases s with
  | nil => simp [patch_nil] at h
  | cons c cs =>
    cases hm : matchHere pattern (c :: cs) with
    | false =>
      rw [patch_cons_of_no_match hm] at h
      injection h with h1 h2
      subst h1
      exact ⟨cs, rfl, h2⟩
    | true =>
      obtain ⟨x, rest, hx, heq⟩ := (matchHere_pattern_iff _).1 hm
      rw [heq, patch_hit x rest hx, replacement_eq] at h
      simp at h
      exact absurd h.2.1.symm he

theorem patch_copy_of_head {c : Nat} {cs : Text} (h : c ≠ 95) :
    patch (c :: cs) = c :: patch cs :=
  patch_cons_of_no_match (matchHere_head h)

/-- A match in `c :: patch cs` is already a match in `c :: cs`. -/
theorem matchHere_cons_patch {c : Nat} {cs : Text}
    (h : matchHere pattern (c :: patch cs) = true) : matchHere pattern (c :: cs) = true := by
  obtain ⟨x, rest, hx, heq⟩ := (matchHere_pattern_iff _).1 h
  injection heq with h0 h1
  obtain ⟨s1, e1, h2⟩ := patch_head h1 (by decide)
  obtain ⟨s2, e2, h3⟩ := patch_head h2 (by decide)
  obtain ⟨s3, e3, h4⟩ := patch_head_next h3 (by decide)
  obtain ⟨s4, e4, h5⟩ := patch_head h4 (by decide)
  obtain ⟨s5, e5, h6⟩ := patch_head h5 (by decide)
  obtain ⟨s6, e6, h7⟩ := patch_head h6 (by decide)
  obtain ⟨s7, e7, _⟩ := patch_head h7 (by decide)
  exact (matchHere_pattern_iff _).2 ⟨x, s7, hx, by rw [h0, e1, e2, e3, e4, e5, e6, e7]⟩

/-- The output of the scan holds no match of the pattern. -/
theorem matchesAnywhere_patch (s : Text) : matchesAnywhere (patch s) = false := by
  induction s using scan_induction with
  | nil => rfl
  | copy c cs hm ih =>
    rw [patch_cons_of_no_match hm]
    simp only [matchesAnywhere, ih, Bool.or_false]
    cases h : matchHere pattern (c :: patch cs) with
    | false => rfl
    | true => rw [matchHere_cons_patch h] at hm; exact absurd hm (by decide)
  | hit x rest hx ih =>
    rw [patch_hit x rest hx, replacement_eq]
    simp [matchesAnywhere, ih, matchHere_head]

theorem patch_of_no_match {s : Text} (h : matchesAnywhere s = false) : patch s = s := by
  induction s with
  | nil => rfl
  | cons c cs ih =>
    simp only [matchesAnywhere, Bool.or_eq_false_iff] at h
    rw [patch_cons_of_no_match h.1, ih h.2]

theorem matchesAnywhere_of_infix {t : Text} (h : wasmToken <:+: t) :
    matchesAnywhere t = true := by
  obtain ⟨a, b, rfl⟩ := h
  induction a with
  | nil =>
    have : matchHere pattern (wasmToken ++ b) = true :=
      matchHere_of_isPrefixOf ((isPrefixOf_iff _ _).2 ⟨b, rfl⟩)
    rw [wasmToken_eq] at this ⊢
    simp only [List.nil_append, List.cons_append, matchesAnywhere] at this ⊢
    simp [this]
  | cons c a ih =>
    simp only [List.cons_append, List.append_assoc, matchesAnywhere] at ih ⊢
    simp [ih]

theorem countOcc_wasmToken_of_no_match {t : Text} (h : matchesAnywhere t = false) :
    countOcc wasmToken t = 0 := by
  induction t with
  | nil => rfl
  | cons c cs ih =>
    simp only [matchesAnywhere, Bool.or_eq_false_iff] at h
    have hp : wasmToken.isPrefixOf (c :: cs) = false := by
      cases hq : wasmToken.isPrefixOf (c :: cs) with
      | false => rfl
      | true => rw [matchHere_of_isPrefixOf hq] at h; exact absurd h.1 (by decide)
    simp [countOcc, hp, ih h.2]

/-! ## Texts built from segments and tokens -/

theorem patch_append_of_not_mem {seg : Text} (h : 95 ∉ seg) (t : Text) :
    patch (seg ++ t) = seg ++ patch t := by
  induction seg with
  | nil => rfl
  | cons c cs ih =>
    simp only [List.mem_cons, not_or] at h
    rw [List.cons_append, patch_copy_of_head (Ne.symm h.1), ih h.2, List.cons_append]

theorem patch_wasmToken_append (t : Text) : patch (wasmToken ++ t) = replacement ++ patch t := by
  rw [wasmToken_eq]
  exact patch_hit 46 t (by decide)

theorem intercalate_cons_cons (sep a b : Text) (l : List Text) :
    List.intercalate sep (a :: b :: l) = a ++ (sep ++ List.intercalate sep (b :: l)) := by
  simp [List.intercalate]

theorem intercalate_singleton (sep a : Text) : List.intercalate sep [a] = a := by
  simp [List.intercalate]

/-! ## The claims about the substitution -/

/-- C2: the patched text holds no occurrence of the literal `_bg.wasm`: the
token is not a contiguous part of it, and no position of it starts the token. -/
theorem patch_no_wasmToken (s : Text) :
    (¬ wasmToken <:+: patch s) ∧ countOcc wasmToken (patch s) = 0 :=
  ⟨fun h => by
      have := matchesAnywhere_of_infix h
      rw [matchesAnywhere_patch] at this
      exact absurd this (by decide),
    countOcc_wasmToken_of_no_match (matchesAnywhere_patch s)⟩

/-- C4: patching is idempotent: a second pass over patched content changes
nothing. -/
theorem patch_idempotent (s : Text) : patch (patch s) = patch s :=
  patch_of_no_match (matchesAnywhere_patch s)

/-- C5: segments free of `_`, joined by `_bg.wasm`, are patched to the same
segments joined by `.asm.js`: every occurrence is rewritten, not only the
first. -/
theorem patch_intercalate (s0 : Text) (rest : List Text)
    (h : ∀ seg ∈ s0 :: rest, '_'.toNat ∉ seg) :
    patch (List.intercalate (toText "_bg.wasm") (s0 :: rest)) =
      List.intercalate (toText ".asm.js") (s0 :: rest) := by
  have e1 : toText "_bg.wasm" = wasmToken := rfl
  have e2 : toText ".asm.js" = replacement := rfl
  have e3 : '_'.toNat = 95 := by decide
  rw [e1, e2]
  rw [e3] at h
  induction rest generalizing s0 with
  | nil =>
    rw [intercalate_singleton, intercalate_singleton]
    have := patch_append_of_not_mem (h s0 (by simp)) []
    simpa [patch_nil] using this
  | cons s1 rest ih =>
    rw [intercalate_cons_cons, intercalate_cons_cons,
      patch_append_of_not_mem (h s0 (by simp)), patch_wasmToken_append,
      ih s1 (fun seg hseg => h seg (List.mem_cons_of_mem _ hseg))]

/-- Scenarios A and B of the specification, as instances of C5. -/
theorem patch_intercalate_witness :
    (∀ seg ∈ [toText "import wasm from \"./foo", toText "\""], '_'.toNat ∉ seg) ∧
    patch (toText "import wasm from \"./foo_bg.wasm\"") =
      toText "import wasm from \"./foo.asm.js\"" ∧
    (∀ seg ∈ [toText "\"a", toText "\" and \"b", toText "\""], '_'.toNat ∉ seg) ∧
    patch (toText "\"a_bg.wasm\" and \"b_bg.wasm\"") =
      toText "\"a.asm.js\" and \"b.asm.js\"" :=
  ⟨by decide,
   patch_intercalate (toText "import wasm from \"./foo") [toText "\""] (by decide),
   by decide,
   patch_intercalate (toText "\"a") [toText "\" and \"b", toText "\""] (by decide)⟩

/-- C10: the `.` of the pattern is a wildcard. A text `_bg`, one code unit `c`,
`wasm` is rewritten to `.asm.js` exactly when `c` is no line terminator, and is
returned unchanged when it is one; `_bg_wasm` and `_bgXwasm`, which hold no
literal `_bg.wasm`, are rewritten. -/
theorem patch_wildcard (c : Nat) :
    (patch (toText "_bg" ++ c :: toText "wasm") = toText ".asm.js" ↔
      isLineTerminator c = false) ∧
    patch (toText "_bg" ++ c :: toText "wasm") =
      (if isLineTerminator c then toText "_bg" ++ c :: toText "wasm" else toText ".asm.js") ∧
    (¬ toText "_bg.wasm" <:+: toText "_bg_wasm") ∧
    patch (toText "_bg_wasm") = toText ".asm.js" ∧
    (¬ toText "_bg.wasm" <:+: toText "_bgXwasm") ∧
    patch (toText "_bgXwasm") = toText ".asm.js" := by
  have e1 : toText "_bg" = [95, 98, 103] := by decide
  have e2 : toText "wasm" = [119, 97, 115, 109] := by decide
  have e3 : toText ".asm.js" = replacement := rfl
  have key : patch (toText "_bg" ++ c :: toText "wasm") =
      (if isLineTerminator c then toText "_bg" ++ c :: toText "wasm" else toText ".asm.js") := by
    rw [e1, e2, e3]
    cases hc : isLineTerminator c with
    | false =>
      have := patch_hit c [] hc
      simpa [patch_nil] using this
    | true =>
      apply patch_of_no_match
      simp [matchesAnywhere, pattern_eq, matchHere, Atom.accepts, hc]
  refine ⟨?_, key, by decide, by decide, by decide, by decide⟩
  rw [key]
  cases hc : isLineTerminator c with
  | false => simp
  | true => simp [e1, e2, e3, replacement_eq]

/-! ## Counting the fallback token in the output -/

theorem isPrefixOf_replacement_iff (t : Text) :
    replacement.isPrefixOf t = true ↔
      ∃ rest, t = 46 :: 97 :: 115 :: 109 :: 46 :: 106 :: 115 :: rest := by
  rw [isPrefixOf_iff, replacement_eq]
  constructor
  · rintro ⟨r, rfl⟩; exact ⟨r, rfl⟩
  · rintro ⟨r, rfl⟩; exact ⟨r, rfl⟩

/-- The fallback token starts `c :: patch cs` exactly when it starts `c :: cs`:
copying a code unit neither creates nor destroys an occurrence. -/
theorem isPrefixOf_replacement_cons_patch (c : Nat) (cs : Text) :
    replacement.isPrefixOf (c :: patch cs) = replacement.isPrefixOf (c :: cs) := by
  rw [Bool.eq_iff_iff, isPrefixOf_replacement_iff, isPrefixOf_replacement_iff]
  constructor
  · rintro ⟨rest, heq⟩
    injection heq with h0 h1
    obtain ⟨s1, e1, h2⟩ := patch_head h1 (by decide)
    obtain ⟨s2, e2, h3⟩ := patch_head h2 (by decide)
    obtain ⟨s3, e3, h4⟩ := patch_head h3 (by decide)
    obtain ⟨s4, e4, h5⟩ := patch_head_next h4 (by decide)
    obtain ⟨s5, e5, h6⟩ := patch_head h5 (by decide)
    obtain ⟨s6, e6, _⟩ := patch_head h6 (by decide)
    exact ⟨s6, by rw [h0, e1, e2, e3, e4, e5, e6]⟩
  · rintro ⟨rest, heq⟩
    injection heq with h0 h1
    refine ⟨patch rest, ?_⟩
    rw [h0, h1, patch_copy_of_head (by decide), patch_copy_of_head (by decide),
      patch_copy_of_head (by decide), patch_copy_of_head (by decide),
      patch_copy_of_head (by decide), patch_copy_of_head (by decide)]

/-- Occurrences of `.asm.js` in the output: one for each match of the pattern,
and those the input already had. -/
theorem countOcc_replacement_patch (s : Text) :
    countOcc replacement (patch s) = countMatches s + countOcc replacement s := by
  induction s using scan_induction with
  | nil => rfl
  | copy c cs hm ih =>
    rw [patch_cons_of_no_match hm]
    simp only [countOcc, countMatches, hm, isPrefixOf_replacement_cons_patch, ih]
    simp only [Bool.false_eq_true, if_false]
    omega
  | hit x rest hx ih =>
    rw [patch_hit x rest hx]
    have hm : matchHere pattern (95 :: 98 :: 103 :: x :: 119 :: 97 :: 115 :: 109 :: rest) = true :=
      (matchHere_pattern_iff _).2 ⟨x, rest, hx, rfl⟩
    have hxm : matchHere pattern (x :: 119 :: 97 :: 115 :: 109 :: rest) = false := by
      rw [pattern_eq]; simp [matchHere, Atom.accepts]
    have hxr : replacement.isPrefixOf (x :: 119 :: 97 :: 115 :: 109 :: rest) = false := by
      rw [replacement_eq]; simp [List.isPrefixOf]
    have hl : countOcc replacement (replacement ++ patch rest) =
        1 + countOcc replacement (patch rest) := by
      rw [replacement_eq]; simp [countOcc, List.isPrefixOf]
    have hr : countOcc replacement (95 :: 98 :: 103 :: x :: 119 :: 97 :: 115 :: 109 :: rest) =
        countOcc replacement rest := by
      simp only [countOcc, hxr]
      rw [replacement_eq]; simp [List.isPrefixOf]
    have hc : countMatches (95 :: 98 :: 103 :: x :: 119 :: 97 :: 115 :: 109 :: rest) =
        1 + countMatches rest := by
      simp only [countMatches, hm, hxm]
      simp [matchHere_head]
    rw [hl, hr, hc, ih]
    omega

theorem countMatches_of_literal {s : Text} (h : nonLiteralMatch s = false) :
    countMatches s = countOcc wasmToken s := by
  induction s with
  | nil => rfl
  | cons c cs ih =>
    simp only [nonLiteralMatch, Bool.or_eq_false_iff] at h
    simp only [countMatches, countOcc, ih h.2]
    cases hp : wasmToken.isPrefixOf (c :: cs) with
    | true => simp [matchHere_of_isPrefixOf hp]
    | false =>
      have := h.1
      rw [hp] at this
      simp at this
      simp [this]

/-! ## Literal replace-all and the scan -/

theorem literalReplaceAll_cons_of_not_prefix {c : Nat} {cs : Text}
    (h : wasmToken.isPrefixOf (c :: cs) = false) :
    literalReplaceAll (c :: cs) = c :: literalReplaceAll cs := by
  simp [literalReplaceAll, literalReplaceFrom, h]

theorem literalReplaceAll_hit (rest : Text) :
    literalReplaceAll (95 :: 98 :: 103 :: 46 :: 119 :: 97 :: 115 :: 109 :: rest) =
      replacement ++ literalReplaceAll rest := by
  have hm : wasmToken.isPrefixOf (95 :: 98 :: 103 :: 46 :: 119 :: 97 :: 115 :: 109 :: rest) = true :=
    (isPrefixOf_wasmToken_iff _).2 ⟨rest, rfl⟩
  have hl : wasmToken.length - 1 = 7 := by rw [wasmToken_eq]; rfl
  simp only [literalReplaceAll, literalReplaceFrom, hm, if_true, hl]

/-- Where the pattern matches only at literal occurrences of the token, the
scan is the literal replace-all. -/
theorem patch_eq_literalReplaceAll {s : Text} (h : nonLiteralMatch s = false) :
    patch s = literalReplaceAll s := by
  induction s using scan_induction with
  | nil => rfl
  | copy c cs hm ih =>
    simp only [nonLiteralMatch, Bool.or_eq_false_iff] at h
    have hp : wasmToken.isPrefixOf (c :: cs) = false := by
      cases hq : wasmToken.isPrefixOf (c :: cs) with
      | false => rfl
      | true => rw [matchHere_of_isPrefixOf hq] at hm; exact absurd hm (by decide)
    rw [patch_cons_of_no_match hm, literalReplaceAll_cons_of_not_prefix hp, ih h.2]
  | hit x rest hx ih =>
    have hm : matchHere pattern (95 :: 98 :: 103 :: x :: 119 :: 97 :: 115 :: 109 :: rest) = true :=
      (matchHere_pattern_iff _).2 ⟨x, rest, hx, rfl⟩
    have hrest : nonLiteralMatch rest = false := by
      simp only [nonLiteralMatch, Bool.or_eq_false_iff] at h
      exact h.2.2.2.2.2.2.2.2
    have hx46 : x = 46 := by
      simp only [nonLiteralMatch, Bool.or_eq_false_iff, hm, Bool.true_and] at h
      have h1 := h.1
      simp only [Bool.not_eq_false_eq_eq_true, Bool.not_eq_eq_eq_not, Bool.not_false] at h1
      obtain ⟨r, hr⟩ := (isPrefixOf_wasmToken_iff _).1 h1
      injection hr with _ hr
      injection hr with _ hr
      injection hr with _ hr
      injection hr with hr _
    subst hx46
    rw [patch_hit 46 rest hx, literalReplaceAll_hit, ih hrest]

/-- C1, at an input the code can receive: `init_bg_wasm()` holds no literal
`_bg.wasm`, so the literal replace-all of the specification returns it as it
is, and yet the script rewrites it. -/
theorem patch_ne_literalReplaceAll :
    (¬ toText "_bg.wasm" <:+: toText "init_bg_wasm()") ∧
    literalReplaceAll (toText "init_bg_wasm()") = toText "init_bg_wasm()" ∧
    patch (toText "init_bg_wasm()") = toText "init.asm.js()" ∧
    patch (toText "init_bg_wasm()") ≠ literalReplaceAll (toText "init_bg_wasm()") := by
  decide

/-- C3 fails as stated: `./pkg.asm.js` holds no `_bg.wasm`, and its patched
text holds one `.asm.js`. -/
theorem countOcc_replacement_counterexample :
    countOcc (toText "_bg.wasm") (toText "./pkg.asm.js") = 0 ∧
    countOcc (toText ".asm.js") (patch (toText "./pkg.asm.js")) = 1 ∧
    countOcc (toText ".asm.js") (patch (toText "./pkg.asm.js")) ≠
      countOcc (toText "_bg.wasm") (toText "./pkg.asm.js") := by
  decide

/-- C3, amended: in a text where the pattern matches only at literal occurrences
of `_bg.wasm`, the patched text holds as many `.asm.js` as the input held
`_bg.wasm` and `.asm.js` together. -/
theorem countOcc_patch_of_literal (s : Text) (h : nonLiteralMatch s = false) :
    countOcc (toText ".asm.js") (patch s) =
      countOcc (toText "_bg.wasm") s + countOcc (toText ".asm.js") s := by
  have e1 : toText "_bg.wasm" = wasmToken := rfl
  have e2 : toText ".asm.js" = replacement := rfl
  rw [e1, e2, countOcc_replacement_patch, countMatches_of_literal h]

/-- An instance of the amended C3: two occurrences of `_bg.wasm` and one
`.asm.js` in the input, three `.asm.js` in the output. -/
theorem countOcc_patch_of_literal_witness :
    nonLiteralMatch (toText "a_bg.wasm b.asm.js c_bg.wasm") = false ∧
    countOcc (toText "_bg.wasm") (toText "a_bg.wasm b.asm.js c_bg.wasm") = 2 ∧
    countOcc (toText ".asm.js") (toText "a_bg.wasm b.asm.js c_bg.wasm") = 1 ∧
    countOcc (toText ".asm.js") (patch (toText "a_bg.wasm b.asm.js c_bg.wasm")) = 2 + 1 :=
  ⟨by decide, by decide, by decide,
   countOcc_patch_of_literal (toText "a_bg.wasm b.asm.js c_bg.wasm") (by decide)⟩

/-! ## The paths -/

theorem pathOf_zero : pathOf 0 = "./rust/pkg/cardano_message_signing_bg.js" := rfl

theorem pathOf_one : pathOf 1 = "./rust/pkg/cardano_message_signing.js" := rfl

theorem pathOf_ne : pathOf 0 ≠ pathOf 1 := by decide

theorem pathOf_injective {i j : Fin 2} (h : pathOf i = pathOf j) : i = j := by
  fin_cases i <;> fin_cases j <;> first | rfl | exact absurd h (by decide)

theorem wasmPath_ne (i : Fin 2) : wasmPath ≠ pathOf i := by
  fin_cases i <;> decide

/-! ## One step of one sequence -/

/-- A step touches no path but its own. -/
theorem stepTask_fs_of_ne (i : Fin 2) (st : State) {q : String} (hq : q ≠ pathOf i) :
    (stepTask i st).1.fs q = st.fs q := by
  cases hp : st.phase i with
  | reading =>
    cases hf : st.fs (pathOf i) with
    | none => simp [stepTask, hp, readFile, hf]
    | some e =>
      cases e with
      | directory => simp [stepTask, hp, readFile, hf]
      | file f => cases hr : f.readable <;> simp [stepTask, hp, readFile, hf, hr]
  | writing result =>
    cases hf : st.fs (pathOf i) with
    | none => simp [stepTask, hp, writeFile, hf, Function.update, hq]
    | some e =>
      cases e with
      | directory => simp [stepTask, hp, writeFile, hf]
      | file f =>
        cases hw : f.writable <;> simp [stepTask, hp, writeFile, hf, hw, Function.update, hq]
  | done => simp [stepTask, hp]

/-- A step leaves the phase of the other sequence alone. -/
theorem stepTask_phase_of_ne (i : Fin 2) (st : State) {j : Fin 2} (hj : j ≠ i) :
    (stepTask i st).1.phase j = st.phase j := by
  cases hp : st.phase i with
  | reading =>
    cases hf : st.fs (pathOf i) with
    | none => simp [stepTask, hp, readFile, hf, Function.update, hj]
    | some e =>
      cases e with
      | directory => simp [stepTask, hp, readFile, hf, Function.update, hj]
      | file f =>
        cases hr : f.readable <;> simp [stepTask, hp, readFile, hf, hr, Function.update, hj]
  | writing result =>
    cases hf : st.fs (pathOf i) with
    | none => simp [stepTask, hp, writeFile, hf, Function.update, hj]
    | some e =>
      cases e with
      | directory => simp [stepTask, hp, writeFile, hf, Function.update, hj]
      | file f =>
        cases hw : f.writable <;> simp [stepTask, hp, writeFile, hf, hw, Function.update, hj]
  | done => simp [stepTask, hp]

/-- A step does not change what its sequence will have left at its path. -/
theorem pendingEntry_stepTask (i : Fin 2) (st : State) :
    pendingEntry ((stepTask i st).1.phase i) ((stepTask i st).1.fs (pathOf i)) =
      pendingEntry (st.phase i) (st.fs (pathOf i)) := by
  cases hp : st.phase i with
  | reading =>
    cases hf : st.fs (pathOf i) with
    | none => simp [stepTask, hp, readFile, hf, pendingEntry, patchedEntry]
    | some e =>
      cases e with
      | directory => simp [stepTask, hp, readFile, hf, pendingEntry, patchedEntry]
      | file f =>
        cases hr : f.readable <;> cases hw : f.writable <;>
          simp [stepTask, hp, readFile, hf, hr, hw, pendingEntry, patchedEntry]
  | writing result =>
    cases hf : st.fs (pathOf i) with
    | none => simp [stepTask, hp, writeFile, hf, pendingEntry]
    | some e =>
      cases e with
      | directory => simp [stepTask, hp, writeFile, hf, pendingEntry]
      | file f => cases hw : f.writable <;> simp [stepTask, hp, writeFile, hf, hw, pendingEntry]
  | done => simp [stepTask, hp]

/-- A sequence is complete after two of its steps. -/
theorem stepTask_twice_done (i : Fin 2) (st : State) :
    (stepTask i (stepTask i st).1).1.phase i = .done := by
  cases hp : st.phase i with
  | reading =>
    cases hf : st.fs (pathOf i) with
    | none => simp [stepTask, hp, readFile, hf]
    | some e =>
      cases e with
      | directory => simp [stepTask, hp, readFile, hf]
      | file f =>
        cases hr : f.readable <;> cases hw : f.writable <;>
          simp [stepTask, hp, readFile, writeFile, hf, hr, hw]
  | writing result =>
    cases hf : st.fs (pathOf i) with
    | none => simp [stepTask, hp, writeFile, hf]
    | some e =>
      cases e with
      | directory => simp [stepTask, hp, writeFile, hf]
      | file f => cases hw : f.writable <;> simp [stepTask, hp, writeFile, hf, hw]
  | done => simp [stepTask, hp]

/-! ## The settled file system is invariant -/

theorem settled_stepTask (i : Fin 2) (st : State) : settled (stepTask i st).1 = settled st := by
  have h01 := pathOf_ne
  have h10 := pathOf_ne.symm
  funext q
  fin_cases i
  · by_cases hq : q = pathOf 0
    · subst hq
      simpa [settled] using pendingEntry_stepTask 0 st
    · have e1 := stepTask_fs_of_ne 0 st hq
      have e2 := stepTask_phase_of_ne 0 st (show (1 : Fin 2) ≠ 0 by decide)
      simp only [Fin.zero_eta, settled, hq, if_false, e1, e2]
  · by_cases hq : q = pathOf 1
    · subst hq
      simpa [settled, h10] using pendingEntry_stepTask 1 st
    · have e1 := stepTask_fs_of_ne 1 st hq
      have e2 := stepTask_phase_of_ne 1 st (show (0 : Fin 2) ≠ 1 by decide)
      simp only [Fin.mk_one, settled, hq, if_false, e1, e2]

theorem settled_runSchedule (sched : List (Fin 2)) (st : State) :
    settled (runSchedule sched st).1 = settled st := by
  induction sched generalizing st with
  | nil => rfl
  | cons i rest ih => simp only [runSchedule, ih, settled_stepTask]

theorem runSchedule_append (s1 s2 : List (Fin 2)) (st : State) :
    (runSchedule (s1 ++ s2) st).1 = (runSchedule s2 (runSchedule s1 st).1).1 := by
  induction s1 generalizing st with
  | nil => rfl
  | cons i rest ih =>
    rw [List.cons_append]
    simp only [runSchedule]
    exact ih _

theorem settled_of_done {st : State} (h : ∀ i, st.phase i = .done) : settled st = st.fs := by
  funext q
  simp [settled, h, pendingEntry]

/-- Once the loop has run whatever the schedule left, nothing is pending. -/
theorem eventLoop_done (sched : List (Fin 2)) (st : State) (i : Fin 2) :
    (eventLoop sched st).1.phase i = .done := by
  rw [eventLoop, runSchedule_append]
  generalize (runSchedule sched st).1 = s
  simp only [runSchedule]
  fin_cases i
  · simp only [Fin.zero_eta]
    rw [stepTask_phase_of_ne 1 _ (by decide), stepTask_phase_of_ne 1 _ (by decide)]
    exact stepTask_twice_done 0 s
  · exact stepTask_twice_done 1 _

/-- What the event loop leaves, whatever the schedule. -/
theorem eventLoop_fs (sched : List (Fin 2)) (st : State) :
    (eventLoop sched st).1.fs = settled st := by
  rw [← settled_of_done (eventLoop_done sched st), eventLoop, settled_runSchedule]

/-- A schedule that completes both sequences leaves nothing for the loop to add. -/
theorem runSchedule_fs_of_done {sched : List (Fin 2)} {st : State}
    (h : ∀ i, (runSchedule sched st).1.phase i = .done) :
    (runSchedule sched st).1.fs = settled st := by
  rw [← settled_of_done h, settled_runSchedule]

/-! ## Schedules that complete both sequences -/

theorem pending_stepTask (i : Fin 2) (st : State) :
    ((stepTask i st).1.phase i).pending ≤ (st.phase i).pending - 1 := by
  cases hp : st.phase i with
  | reading =>
    cases hf : st.fs (pathOf i) with
    | none => simp [stepTask, hp, readFile, hf, Phase.pending]
    | some e =>
      cases e with
      | directory => simp [stepTask, hp, readFile, hf, Phase.pending]
      | file f => cases hr : f.readable <;> simp [stepTask, hp, readFile, hf, hr, Phase.pending]
  | writing result =>
    cases hf : st.fs (pathOf i) with
    | none => simp [stepTask, hp, writeFile, hf, Phase.pending]
    | some e =>
      cases e with
      | directory => simp [stepTask, hp, writeFile, hf, Phase.pending]
      | file f => cases hw : f.writable <;> simp [stepTask, hp, writeFile, hf, hw, Phase.pending]
  | done => simp [stepTask, hp, Phase.pending]

theorem pending_runSchedule (sched : List (Fin 2)) (st : State) (i : Fin 2) :
    ((runSchedule sched st).1.phase i).pending ≤ (st.phase i).pending - sched.count i := by
  induction sched generalizing st with
  | nil => simp [runSchedule]
  | cons j rest ih =>
    simp only [runSchedule]
    refine le_trans (ih _) ?_
    by_cases hji : j = i
    · subst hji
      have := pending_stepTask j st
      rw [List.count_cons_self]
      omega
    · rw [stepTask_phase_of_ne j st (Ne.symm hji)]
      simp [List.count_cons, hji]

theorem pending_eq_zero {ph : Phase} (h : ph.pending = 0) : ph = .done := by
  cases ph <;> simp [Phase.pending] at h ⊢

theorem runSchedule_done_of_perm {sched : List (Fin 2)} (h : sched.Perm [0, 0, 1, 1])
    (fs : FS) (i : Fin 2) : (runSchedule sched (issued fs)).1.phase i = .done := by
  apply pending_eq_zero
  have h1 := pending_runSchedule sched (issued fs) i
  have h2 : sched.count i = 2 := by
    rw [h.count_eq]
    fin_cases i <;> decide
  have h3 : ((issued fs).phase i).pending = 2 := rfl
  omega

/-! ## The whole run -/

theorem settled_issued (fs : FS) (i : Fin 2) :
    settled (issued fs) (pathOf i) = patchedEntry (fs (pathOf i)) := by
  fin_cases i
  · simp [settled, issued, pendingEntry]
  · simp [settled, issued, pendingEntry, pathOf_ne.symm]

theorem settled_issued_of_ne (fs : FS) {q : String} (h : ∀ i, q ≠ pathOf i) :
    settled (issued fs) q = fs q := by
  simp [settled, issued, h 0, h 1]

/-- An error thrown by `unlinkSync` ends the run at once: nothing is patched
and nothing is logged. -/
theorem script_of_error {fs : FS} (sched : List (Fin 2)) {err : FsError}
    (h : unlinkSync fs wasmPath = .error err) :
    (script sched fs).outcome = .uncaught err ∧ (script sched fs).fs = fs ∧
      (script sched fs).console = [] := by
  simp [script, issued, h]

/-- When `unlinkSync` returns, the run ends normally with the binary removed and
both sequences complete. -/
theorem script_of_ok {fs : FS} (sched : List (Fin 2))
    (h : (unlinkSync fs wasmPath).isOk = true) :
    (script sched fs).outcome = .exit0 ∧
      (script sched fs).fs = settled (issued (Function.update fs wasmPath none)) := by
  cases hf : fs wasmPath with
  | none => simp [unlinkSync, hf, Except.isOk, Except.toBool] at h
  | some e =>
    cases e with
    | directory => simp [unlinkSync, hf, Except.isOk, Except.toBool] at h
    | file w =>
      cases hrm : w.removable with
      | false => simp [unlinkSync, hf, hrm, Except.isOk, Except.toBool] at h
      | true =>
        have := eventLoop_fs sched (issued (Function.update fs wasmPath none))
        simp [script, unlinkSync, issued, hf, hrm] at this ⊢
        exact this

theorem unlinkSync_isOk_or_error (fs : FS) (path : String) :
    (unlinkSync fs path).isOk = true ∨ ∃ err, unlinkSync fs path = .error err := by
  cases h : unlinkSync fs path with
  | ok fs1 => exact Or.inl rfl
  | error err => exact Or.inr ⟨err, rfl⟩

theorem script_fs_target {fs : FS} (sched : List (Fin 2))
    (h : (unlinkSync fs wasmPath).isOk = true) (i : Fin 2) :
    (script sched fs).fs (pathOf i) = patchedEntry (fs (pathOf i)) := by
  rw [(script_of_ok sched h).2, settled_issued,
    Function.update_noteq (wasmPath_ne i).symm]

theorem script_fs_wasmPath {fs : FS} (sched : List (Fin 2))
    (h : (unlinkSync fs wasmPath).isOk = true) :
    (script sched fs).fs wasmPath = none := by
  rw [(script_of_ok sched h).2, settled_issued_of_ne _ wasmPath_ne, Function.update_same]

/-- Whether `unlinkSync` throws depends on nothing but what its path names. -/
theorem unlinkSync_isOk_congr {fs fs2 : FS} {path : String} (h : fs2 path = fs path) :
    (unlinkSync fs2 path).isOk = (unlinkSync fs path).isOk ∧
      ∀ err, unlinkSync fs2 path = .error err ↔ unlinkSync fs path = .error err := by
  unfold unlinkSync
  rw [h]
  cases fs path with
  | none => simp [Except.isOk, Except.toBool]
  | some e =>
    cases e with
    | directory => simp [Except.isOk, Except.toBool]
    | file w => cases hrm : w.removable <;> simp [Except.isOk, Except.toBool, hrm]

/-! ## The claims about the run -/

/-- C6: when one target cannot be read, no error comes from the patch step (an
uncaught error can only be the one `unlinkSync` throws), the unreadable path
holds what it held, and the other target ends exactly as it would have with a
readable file at the first path. When `unlinkSync` returns, the run ends
normally and the other target, if it can be read and written, is patched. -/
theorem script_unreadable_target (fs : FS) (sched : List (Fin 2)) (i j : Fin 2) (hij : j ≠ i)
    (hr : ∃ err, readFile fs (pathOf i) = .error err) :
    (∀ err, (script sched fs).outcome = .uncaught err → unlinkSync fs wasmPath = .error err) ∧
    (script sched fs).fs (pathOf i) = fs (pathOf i) ∧
    (∀ (f : File) (sched2 : List (Fin 2)), f.readable = true →
      (script sched fs).fs (pathOf j) =
        (script sched2 (Function.update fs (pathOf i) (some (.file f)))).fs (pathOf j)) ∧
    ((unlinkSync fs wasmPath).isOk = true →
      (script sched fs).outcome = .exit0 ∧
      ∀ g : File, fs (pathOf j) = some (.file g) → g.readable = true → g.writable = true →
        (script sched fs).fs (pathOf j) = some (.file { g with content := patch g.content })) := by
  have hne : pathOf j ≠ pathOf i := fun h => hij (pathOf_injective h)
  have hunread : patchedEntry (fs (pathOf i)) = fs (pathOf i) := by
    obtain ⟨err, herr⟩ := hr
    cases hf : fs (pathOf i) with
    | none => rfl
    | some e =>
      cases e with
      | directory => rfl
      | file f =>
        cases hrd : f.readable with
        | false => simp [patchedEntry, hrd]
        | true => simp [readFile, hf, hrd] at herr
  rcases unlinkSync_isOk_or_error fs wasmPath with hok | ⟨e0, he0⟩
  · have hout := (script_of_ok sched hok).1
    refine ⟨?_, ?_, ?_, ?_⟩
    · intro err h
      rw [hout] at h
      exact absurd h (by simp)
    · rw [script_fs_target sched hok, hunread]
    · intro f sched2 _
      have hok2 : (unlinkSync (Function.update fs (pathOf i) (some (.file f))) wasmPath).isOk
          = true := by
        rw [(unlinkSync_isOk_congr (Function.update_noteq (wasmPath_ne i) _ _)).1]
        exact hok
      rw [script_fs_target sched hok, script_fs_target sched2 hok2, Function.update_noteq hne]
    · intro _
      refine ⟨hout, ?_⟩
      intro g hg hgr hgw
      rw [script_fs_target sched hok, hg]
      simp [patchedEntry, hgr, hgw]
  · have h1 := script_of_error sched he0
    refine ⟨?_, ?_, ?_, ?_⟩
    · intro err h
      rw [h1.1] at h
      injection h with h
      rw [← h]
      exact he0
    · rw [h1.2.1]
    · intro f sched2 _
      have he2 : unlinkSync (Function.update fs (pathOf i) (some (.file f))) wasmPath
          = .error e0 :=
        ((unlinkSync_isOk_congr (Function.update_noteq (wasmPath_ne i) _ _)).2 e0).2 he0
      rw [h1.2.1, (script_of_error sched2 he2).2.1, Function.update_noteq hne]
    · intro hok
      rw [he0] at hok
      simp [Except.isOk, Except.toBool] at hok

/-- An instance of C6: the first loader is missing, the binary can be removed,
the second loader is patched. -/
theorem script_unreadable_target_witness :
    (∃ err, readFile missingLoaderFS (pathOf 0) = .error err) ∧
    (unlinkSync missingLoaderFS wasmPath).isOk = true ∧
    (script [1, 0, 1] missingLoaderFS).outcome = .exit0 ∧
    (script [1, 0, 1] missingLoaderFS).fs (pathOf 0) = missingLoaderFS (pathOf 0) ∧
    (script [1, 0, 1] missingLoaderFS).fs (pathOf 1) =
      some (.file { sampleLoader 1 with content := patch (sampleLoader 1).content }) :=
  have h := script_unreadable_target missingLoaderFS [1, 0, 1] 0 1 (by decide) ⟨.ENOENT, rfl⟩
  ⟨⟨.ENOENT, rfl⟩, by decide, (h.2.2.2 (by decide)).1, h.2.1,
    (h.2.2.2 (by decide)).2 _ rfl rfl rfl⟩

/-- C7: the run ends in an uncaught `ENOENT` exactly when the binary is absent;
it ends in an uncaught error exactly when `unlinkSync` throws, with that error,
and normally exactly when `unlinkSync` returns. The outcome depends on nothing
but what the path of the binary names: the state of the two text targets and
the failures of their reads and writes play no part in it. -/
theorem script_outcome (fs : FS) (sched : List (Fin 2)) :
    ((script sched fs).outcome = .uncaught .ENOENT ↔ fs wasmPath = none) ∧
    ((script sched fs).outcome = .exit0 ↔ (unlinkSync fs wasmPath).isOk = true) ∧
    (∀ err, (script sched fs).outcome = .uncaught err ↔ unlinkSync fs wasmPath = .error err) ∧
    (∀ (fs2 : FS) (sched2 : List (Fin 2)), fs2 wasmPath = fs wasmPath →
      (script sched2 fs2).outcome = (script sched fs).outcome) := by
  have key : ∀ (fs : FS) (sched : List (Fin 2)),
      ((script sched fs).outcome = .exit0 ↔ (unlinkSync fs wasmPath).isOk = true) ∧
      (∀ err, (script sched fs).outcome = .uncaught err ↔
        unlinkSync fs wasmPath = .error err) := by
    intro fs sched
    rcases unlinkSync_isOk_or_error fs wasmPath with hok | ⟨e0, he0⟩
    · have hout := (script_of_ok sched hok).1
      refine ⟨by simp [hout, hok], fun err => ?_⟩
      rw [hout]
      constructor
      · intro h; exact absurd h (by simp)
      · intro h; rw [h] at hok; simp [Except.isOk, Except.toBool] at hok
    · have hout := (script_of_error sched he0).1
      refine ⟨?_, fun err => ?_⟩
      · rw [hout, he0]; simp [Except.isOk, Except.toBool]
      · rw [hout, he0]
        constructor
        · intro h; injection h with h; rw [h]
        · intro h; injection h with h; rw [h]
  refine ⟨?_, (key fs sched).1, (key fs sched).2, ?_⟩
  · rw [(key fs sched).2]
    cases hf : fs wasmPath with
    | none => simp [unlinkSync, hf]
    | some e =>
      cases e with
      | directory => simp [unlinkSync, hf]
      | file w => cases hrm : w.removable <;> simp [unlinkSync, hf, hrm]
  · intro fs2 sched2 h
    have hc := unlinkSync_isOk_congr h
    rcases unlinkSync_isOk_or_error fs wasmPath with hok | ⟨e0, he0⟩
    · rw [((key fs sched).1).2 hok, ((key fs2 sched2).1).2 (hc.1.trans hok)]
    · rw [((key fs sched).2 e0).2 he0, ((key fs2 sched2).2 e0).2 ((hc.2 e0).2 he0)]

set_option maxRecDepth 8000 in
/-- C8 fails as stated: in `lockedFS` the binary exists and both targets are
readable and writable, yet `unlinkSync` throws `EACCES`, no callback runs, the
targets are not patched and the binary is still there. -/
theorem script_locked_counterexample :
    lockedFS wasmPath ≠ none ∧
    (∀ i, lockedFS (pathOf i) = some (.file (sampleLoader i))) ∧
    (∀ i, (sampleLoader i).readable = true ∧ (sampleLoader i).writable = true) ∧
    (script [0, 1, 1, 0] lockedFS).outcome = .uncaught .EACCES ∧
    (script [0, 1, 1, 0] lockedFS).fs wasmPath ≠ none ∧
    (script [0, 1, 1, 0] lockedFS).fs (pathOf 0) = some (.file (sampleLoader 0)) ∧
    (script [0, 1, 1, 0] lockedFS).fs (pathOf 0) ≠
      some (.file { sampleLoader 0 with content := patch (sampleLoader 0).content }) := by
  have he : unlinkSync lockedFS wasmPath = .error .EACCES := rfl
  have h := script_of_error [0, 1, 1, 0] he
  have h0 : lockedFS (pathOf 0) = some (.file (sampleLoader 0)) := rfl
  refine ⟨by decide, ?_, fun _ => ⟨rfl, rfl⟩, h.1, ?_, ?_, ?_⟩
  · intro i; fin_cases i <;> rfl
  · rw [h.2.1]; decide
  · rw [h.2.1, h0]
  · rw [h.2.1, h0]; decide

/-- C8, amended: when `unlinkSync` returns (the binary exists and can be
removed) and both targets are readable and writable, the run ends normally,
each target holds the patch of what it held, which has no `_bg.wasm` in it, and
the binary is gone. -/
theorem script_patches_and_unlinks (fs : FS) (sched : List (Fin 2)) (f : Fin 2 → File)
    (hu : (unlinkSync fs wasmPath).isOk = true) (hf : ∀ i, fs (pathOf i) = some (.file (f i)))
    (hr : ∀ i, (f i).readable = true) (hwr : ∀ i, (f i).writable = true) :
    (script sched fs).outcome = .exit0 ∧
    (∀ i, (script sched fs).fs (pathOf i) =
        some (.file { f i with content := patch (f i).content }) ∧
      ¬ toText "_bg.wasm" <:+: patch (f i).content) ∧
    (script sched fs).fs wasmPath = none := by
  refine ⟨(script_of_ok sched hu).1, fun i => ⟨?_, ?_⟩, script_fs_wasmPath sched hu⟩
  · rw [script_fs_target sched hu, hf i]
    simp [patchedEntry, hr i, hwr i]
  · intro h
    have h1 : matchesAnywhere (patch (f i).content) = true := matchesAnywhere_of_infix h
    rw [matchesAnywhere_patch] at h1
    exact absurd h1 (by decide)

set_option maxRecDepth 8000 in
/-- An instance of the amended C8, scenario C of the specification. -/
theorem script_patches_and_unlinks_witness :
    (unlinkSync sampleFS wasmPath).isOk = true ∧
    (∀ i, sampleFS (pathOf i) = some (.file (sampleLoader i))) ∧
    (∀ i, (sampleLoader i).readable = true ∧ (sampleLoader i).writable = true) ∧
    (script [0, 1, 1, 0] sampleFS).outcome = .exit0 ∧
    (script [0, 1, 1, 0] sampleFS).fs (pathOf 0) =
      some (.file { sampleLoader 0 with content := patch (sampleLoader 0).content }) ∧
    (script [0, 1, 1, 0] sampleFS).fs (pathOf 1) =
      some (.file { sampleLoader 1 with content := patch (sampleLoader 1).content }) ∧
    (script [0, 1, 1, 0] sampleFS).fs wasmPath = none ∧
    patch (sampleLoader 0).content =
      toText "import * as wasm from './cardano_message_signing.asm.js';" ∧
    patch (sampleLoader 1).content =
      toText "export * from './cardano_message_signing.asm.js';" :=
  have hf : ∀ i, sampleFS (pathOf i) = some (.file (sampleLoader i)) := by
    intro i; fin_cases i <;> rfl
  have h := script_patches_and_unlinks sampleFS [0, 1, 1, 0] sampleLoader (by decide) hf
    (fun _ => rfl) (fun _ => rfl)
  ⟨by decide, hf, fun _ => ⟨rfl, rfl⟩, h.1, (h.2.1 0).1, (h.2.1 1).1, h.2.2, by decide, by decide⟩

/-- C9: every interleaving of the two read steps and the two write steps leaves
the same file system, with both sequences complete. -/
theorem interleaving_fs_eq (fs : FS) (σ τ : List (Fin 2))
    (hσ : σ.Perm [0, 0, 1, 1]) (hτ : τ.Perm [0, 0, 1, 1]) :
    (runSchedule σ (issued fs)).1.fs = (runSchedule τ (issued fs)).1.fs ∧
    (∀ i, (runSchedule σ (issued fs)).1.phase i = .done ∧
      (runSchedule τ (issued fs)).1.phase i = .done) := by
  refine ⟨?_, fun i => ⟨runSchedule_done_of_perm hσ fs i, runSchedule_done_of_perm hτ fs i⟩⟩
  rw [runSchedule_fs_of_done (runSchedule_done_of_perm hσ fs),
    runSchedule_fs_of_done (runSchedule_done_of_perm hτ fs)]

/-- An instance of C9: the first path then the second, against the second path
then the first, and against an alternation. -/
theorem interleaving_fs_eq_witness :
    ([0, 0, 1, 1] : List (Fin 2)).Perm [0, 0, 1, 1] ∧
    ([1, 1, 0, 0] : List (Fin 2)).Perm [0, 0, 1, 1] ∧
    ([0, 1, 0, 1] : List (Fin 2)).Perm [0, 0, 1, 1] ∧
    (runSchedule [0, 0, 1, 1] (issued sampleFS)).1.fs =
      (runSchedule [1, 1, 0, 0] (issued sampleFS)).1.fs ∧
    (runSchedule [0, 1, 0, 1] (issued sampleFS)).1.fs =
      (runSchedule [1, 1, 0, 0] (issued sampleFS)).1.fs :=
  ⟨by decide, by decide, by decide,
   (interleaving_fs_eq sampleFS [0, 0, 1, 1] [1, 1, 0, 0] (by decide) (by decide)).1,
   (interleaving_fs_eq sampleFS [0, 1, 0, 1] [1, 1, 0, 0] (by decide) (by decide)).1⟩

end WasmToAsm
